import Mathlib

/-!
Verification development for the KodeReview static-analysis pipeline.

The JavaScript sources are shallowly embedded here:
  * the security-pattern catalog and `scanForSecurityIssues` from
    `src/app/api/review/route.js`,
  * the ESLint adapter `lintCode` (the external ESLint engine is a parameter),
  * the repository fan-out `processRepositoryFiles`,
  * the snippet classifier `guessFileExtension`,
  * the `POST` request handler (external collaborators are parameters and an
    effect trace records which collaborators were invoked),
  * the repository file collector `getCodeFiles` from
    `src/utils/githubProcessor.js` together with `parseGitHubUrl`,
  * the duplicate-filtering passes of `handleSubmit` from `src/app/page.js`.

Strings are modelled as `List Char`; JavaScript regular expressions are
modelled by an explicit backtracking matcher over the exact atoms the catalog
uses (literals, case-insensitive literals, greedy star/plus of a character
class, top-level alternation), with `String.prototype.matchAll` semantics:
repeated leftmost matching, advancing past each match (by one position for an
empty match).
-/

/-! ## Basic string utilities -/

/-- The characters matched by the JavaScript regex class `\s`
(ASCII whitespace plus the Unicode space characters). -/

def jsWhitespace (c : Char) : Bool :=
  c.val = 9 || c.val = 10 || c.val = 11 || c.val = 12 || c.val = 13 ||
  c.val = 32 || c.val = 0xa0 || c.val = 0x1680 ||
  (0x2000 ≤ c.val && c.val ≤ 0x200a) ||
  c.val = 0x2028 || c.val = 0x2029 || c.val = 0x202f ||
  c.val = 0x205f || c.val = 0x3000 || c.val = 0xfeff

/-- The characters matched by the regex class `["']`. -/

def isQuoteChar (c : Char) : Bool :=
  c = '"' || c = Char.ofNat 39

/-- Embedding of `hay.includes(needle)` on character lists. -/

def containsSub (needle hay : List Char) : Bool :=
  hay.tails.any (fun suffix => needle.isPrefixOf suffix)

/-- Embedding of JavaScript `hay.includes(needle)` on strings. -/

def containsStr (hay needle : String) : Bool :=
  containsSub needle.toList hay.toList

/-- Embedding of `s.split(sep)` for a one-character separator:
`splitOnChar sep cs` returns the (possibly empty) chunks between
occurrences of `sep`, and `[[]]` on the empty list. -/

def splitOnChar (sep : Char) : List Char → List (List Char)
  | [] => [[]]
  | c :: rest =>
    if c = sep then [] :: splitOnChar sep rest
    else
      match splitOnChar sep rest with
      | [] => [[c]]
      | h :: t => (c :: h) :: t

/-! ## The regex matcher

Every pattern in the security catalog is an alternation of sequences built
from four atom shapes: a case-sensitive literal, a case-insensitive literal,
and greedy star/plus of a character class.  `matchSeq` is an ordered
backtracking matcher with JavaScript semantics: a star or plus first consumes
the longest possible run of its class and gives characters back one at a time
until the rest of the sequence matches; alternatives are tried left to right
and the first success wins. -/

/-- One regex atom. -/

inductive Atom where
  | lit (s : List Char)
  | liti (s : List Char)
  | star (cls : Char → Bool)
  | plus (cls : Char → Bool)

/-- Try the continuation after consuming `k, k-1, ..., 0` characters
(the greedy backtracking loop of a star). -/

def tryStar (f : List Char → Option Nat) (cs : List Char) : Nat → Option Nat
  | 0 => f cs
  | k + 1 =>
    match f (cs.drop (k + 1)) with
    | some n => some ((k + 1) + n)
    | none => tryStar f cs k

/-- Same loop for a plus: at least one character must be consumed. -/

def tryPlus (f : List Char → Option Nat) (cs : List Char) : Nat → Option Nat
  | 0 => none
  | k + 1 =>
    match f (cs.drop (k + 1)) with
    | some n => some ((k + 1) + n)
    | none => tryPlus f cs k

/-- Match a sequence of atoms at the start of `cs`, returning the number of
characters consumed by the (leftmost-greedy) match, if any. -/

def matchSeq : List Atom → List Char → Option Nat
  | [], _ => some 0
  | Atom.lit s :: rest, cs =>
    if s.isPrefixOf cs then (matchSeq rest (cs.drop s.length)).map (s.length + ·)
    else none
  | Atom.liti s :: rest, cs =>
    if (s.map Char.toLower).isPrefixOf (cs.map Char.toLower) then
      (matchSeq rest (cs.drop s.length)).map (s.length + ·)
    else none
  | Atom.star cls :: rest, cs => tryStar (matchSeq rest) cs (cs.takeWhile cls).length
  | Atom.plus cls :: rest, cs => tryPlus (matchSeq rest) cs (cs.takeWhile cls).length

/-- Top-level alternation: the first alternative that matches wins. -/

def matchAlts : List (List Atom) → List Char → Option Nat
  | [], _ => none
  | alt :: rest, cs =>
    match matchSeq alt cs with
    | some n => some n
    | none => matchAlts rest cs

/-- The iteration core of `matchAll` for a global regex: starting at the
current suffix, record the position of each successive leftmost match and
resume after it (after one character for an empty match, as the `matchAll`
iterator bumps `lastIndex` past empty matches).  The fuel argument only
serves termination; `length + 1` units are always sufficient. -/

def matchAllAux (m : List Char → Option Nat) : Nat → List Char → Nat → List Nat
  | 0, _, _ => []
  | fuel + 1, cs, pos =>
    match cs with
    | [] =>
      match m [] with
      | some _ => [pos]
      | none => []
    | _ :: rest =>
      match m cs with
      | none => matchAllAux m fuel rest (pos + 1)
      | some len =>
        pos :: matchAllAux m fuel (cs.drop (max 1 len)) (pos + max 1 len)

/-- Embedding of `[...code.matchAll(pattern)]`, as the list of match start
indices. -/

def matchAll (m : List Char → Option Nat) (cs : List Char) : List Nat :=
  matchAllAux m (cs.length + 1) cs 0

/-! ## The security-pattern catalog and scanner

This is the second (current) `securityPatterns` array and
`scanForSecurityIssues` of `src/app/api/review/route.js`, rule for rule and
in catalog order. -/

/-- One entry of the `securityPatterns` array.  The regex is kept as its
matcher function (match length at the start of a suffix, if any). -/

structure SecurityPattern where
  pattern : List Char → Option Nat
  title : String
  description : String
  languages : Option (List String)

/-- A sequence regex of literal and whitespace-star atoms, the shape of most
catalog entries. -/

def rxSeq (atoms : List Atom) : List Char → Option Nat :=
  matchSeq atoms

/-- Shorthand for `lit s` then `\s*` then `(`. -/

def rxCallAtoms (s : String) : List Atom :=
  [Atom.lit s.toList, Atom.star jsWhitespace, Atom.lit "(".toList]

def ruleEval : SecurityPattern where
  pattern := rxSeq (rxCallAtoms "eval")
  title := "Dangerous use of eval()"
  description := "The eval() function can execute arbitrary code, posing a security risk."
  languages := some ["js", "jsx", "ts", "tsx", "py"]

def ruleDocumentWrite : SecurityPattern where
  pattern := rxSeq (rxCallAtoms "document.write")
  title := "Insecure DOM manipulation"
  description := "document.write() is vulnerable to XSS attacks."
  languages := some ["js", "jsx", "ts", "tsx"]

def ruleInnerHTML : SecurityPattern where
  pattern := rxSeq [Atom.lit "innerHTML".toList, Atom.star jsWhitespace, Atom.lit "=".toList]
  title := "Potential XSS vulnerability"
  description := "Using innerHTML can lead to cross-site scripting attacks."
  languages := some ["js", "jsx", "ts", "tsx"]

def ruleLocalStorage : SecurityPattern where
  pattern := rxSeq [Atom.lit "localStorage".toList, Atom.star jsWhitespace,
    Atom.lit ".".toList, Atom.star jsWhitespace, Atom.lit "setItem".toList,
    Atom.star jsWhitespace, Atom.lit "(".toList]
  title := "Sensitive data storage"
  description := "Be cautious when storing data in localStorage as it is not secure for sensitive information."
  languages := some ["js", "jsx", "ts", "tsx"]

def ruleCredentials : SecurityPattern where
  pattern := matchAlts [[Atom.liti "password".toList], [Atom.liti "token".toList],
    [Atom.liti "secret".toList], [Atom.liti "key".toList]]
  title := "Potential hardcoded credentials"
  description := "Possible sensitive information found. Never hardcode passwords or keys."
  languages := some ["js", "jsx", "ts", "tsx", "py"]

def ruleSqlInjection : SecurityPattern where
  pattern := matchAlts [
    [Atom.lit ".exec".toList, Atom.star jsWhitespace, Atom.lit "(".toList,
      Atom.star jsWhitespace, Atom.lit "req.body".toList],
    [Atom.lit ".exec".toList, Atom.star jsWhitespace, Atom.lit "(".toList,
      Atom.star jsWhitespace, Atom.lit "req.query".toList]]
  title := "SQL Injection risk"
  description := "Direct use of user input in database queries creates SQL injection vulnerabilities."
  languages := some ["js", "jsx", "ts", "tsx"]

def ruleHttp : SecurityPattern where
  pattern := rxSeq [Atom.lit "http:".toList]
  title := "Insecure HTTP protocol"
  description := "Using HTTP instead of HTTPS can expose data to eavesdropping."
  languages := some ["js", "jsx", "ts", "tsx", "py"]

def ruleApiKey : SecurityPattern where
  pattern := rxSeq [Atom.lit "apiKey".toList, Atom.star jsWhitespace,
    Atom.lit "=".toList, Atom.star jsWhitespace, Atom.star isQuoteChar,
    Atom.plus (fun c => !isQuoteChar c)]
  title := "Hardcoded API keys"
  description := "Hardcoded API keys or tokens expose your service to unauthorized access."
  languages := some ["js", "jsx", "ts", "tsx", "py"]

def ruleExec : SecurityPattern where
  pattern := rxSeq (rxCallAtoms "exec")
  title := "Dangerous use of exec()"
  description := "The exec() function can execute arbitrary code, posing a security risk."
  languages := some ["py"]

def ruleInput : SecurityPattern where
  pattern := rxSeq (rxCallAtoms "input")
  title := "Unsafe input usage"
  description := "Using input() without proper validation can lead to security vulnerabilities."
  languages := some ["py"]

def ruleOsSystem : SecurityPattern where
  pattern := rxSeq (rxCallAtoms "os.system")
  title := "Dangerous system command execution"
  description := "Direct execution of system commands can lead to command injection vulnerabilities."
  languages := some ["py"]

def ruleSubprocess : SecurityPattern where
  pattern := rxSeq (rxCallAtoms "subprocess.call")
  title := "Unsafe subprocess execution"
  description := "Make sure to sanitize inputs when using subprocess to prevent command injection."
  languages := some ["py"]

def rulePickle : SecurityPattern where
  pattern := rxSeq [Atom.lit "pickle.load".toList]
  title := "Unsafe deserialization"
  description := "Using pickle for deserialization can lead to remote code execution vulnerabilities."
  languages := some ["py"]

/-- The static rule catalog, in source order. -/

def securityPatterns : List SecurityPattern :=
  [ruleEval, ruleDocumentWrite, ruleInnerHTML, ruleLocalStorage,
   ruleCredentials, ruleSqlInjection, ruleHttp, ruleApiKey,
   ruleExec, ruleInput, ruleOsSystem, ruleSubprocess, rulePickle]

/-- One reported security issue (the wire shape `{title, description,
location}`). -/

structure SecurityIssue where
  title : String
  description : String
  location : String
deriving DecidableEq, Repr

/-- Embedding of `fileExt.replace(".", "")`: JavaScript `replace` with a
string argument removes only the first occurrence. -/

def removeFirstDot : List Char → List Char
  | [] => []
  | c :: rest => if c = '.' then rest else c :: removeFirstDot rest

/-- The `fileType` computed at the top of `scanForSecurityIssues`. -/

def fileTypeOf (fileExt : String) : String :=
  String.mk (removeFirstDot fileExt.toList)

/-- The line number of a match: `code.substring(0, index).split("\n").length`. -/

def lineNumberAt (code : List Char) (idx : Nat) : Nat :=
  (splitOnChar '\n' (code.take idx)).length

/-- The findings one rule pushes: one issue per match of its pattern. -/

def ruleFindings (code : List Char) (p : SecurityPattern) : List SecurityIssue :=
  (matchAll p.pattern code).map (fun idx =>
    { title := p.title, description := p.description,
      location := "Line " ++ toString (lineNumberAt code idx) })

/-- The language guard at the top of the `forEach` body: a rule is skipped
exactly when it carries a language list that excludes the file type. -/

def langApplies (p : SecurityPattern) (fileExt : String) : Bool :=
  match p.languages with
  | some ls => ls.contains (fileTypeOf fileExt)
  | none => true

/-- The body of `securityPatterns.forEach`: skip inapplicable rules,
otherwise push one finding per match. -/

def scanStep (code : List Char) (fileExt : String)
    (issues : List SecurityIssue) (p : SecurityPattern) : List SecurityIssue :=
  if langApplies p fileExt then issues ++ ruleFindings code p else issues

/-- Embedding of `scanForSecurityIssues(code, fileExt)`. -/

def scanForSecurityIssues (code : List Char) (fileExt : String) : List SecurityIssue :=
  securityPatterns.foldl (scanStep code fileExt) []

/-! ## The lint adapter

`lintCode` writes the content into a fresh temporary directory, runs ESLint,
formats the messages, and removes the directory; on an ESLint failure the
`catch` block removes the directory and returns the empty list.  The ESLint
engine is external (the "Linter" capability), so it is a parameter: it either
returns raw messages or fails. -/

/-- One raw ESLint message, as read off `results[0].messages`. -/

structure RawMessage where
  line : Nat
  column : Nat
  severity : Nat
  message : String
  ruleId : Option String
deriving DecidableEq, Repr

/-- One normalized diagnostic (the wire shape of a lint issue). -/

structure LintIssue where
  line : Nat
  column : Nat
  severity : String
  message : String
  ruleId : Option String
deriving DecidableEq, Repr

/-- The external Linter capability: content and extension in, raw messages or
a thrown error out. -/

def Linter : Type := String → String → Except String (List RawMessage)

/-- The per-message normalization in `lintCode`. -/

def formatMessage (m : RawMessage) : LintIssue :=
  { line := m.line, column := m.column,
    severity := if m.severity = 2 then "error" else "warning",
    message := m.message, ruleId := m.ruleId }

/-- The set of live temporary directories, for the cleanup obligation. -/

structure TempState where
  dirs : List String
deriving DecidableEq, Repr

/-- Embedding of `lintCode(code, ext)`.  `dirName` is the fresh
`code-review-<uuid>` directory name; the returned state reflects the `mkdir`
and the `rm` on whichever exit path was taken (the model treats the
filesystem calls themselves as succeeding). -/

def lintCode (linter : Linter) (code ext : String) (dirName : String)
    (st : TempState) : List LintIssue × TempState :=
  let afterMkdir : TempState := { dirs := st.dirs ++ [dirName] }
  match linter code ext with
  | Except.ok msgs =>
    (msgs.map formatMessage, { dirs := afterMkdir.dirs.filter (fun d => d ≠ dirName) })
  | Except.error _ =>
    ([], { dirs := afterMkdir.dirs.filter (fun d => d ≠ dirName) })

/-- The value `lintCode` returns, ignoring the temporary-directory state. -/

def lintCodeResult (linter : Linter) (code ext : String) : List LintIssue :=
  match linter code ext with
  | Except.ok msgs => msgs.map formatMessage
  | Except.error _ => []

/-! ## The repository fan-out

`processRepositoryFiles(files)` iterates over the collected
path-to-content mapping (an insertion-ordered association list here).  The
`await lintCode(...)` invocation may itself throw (for instance on a
filesystem failure), which the per-file `try`/`catch` swallows; that
possibility is the `Except` in the `lintStep` parameter.  Note that an
ESLint *parse* failure is already caught inside `lintCode` and surfaces as
an empty list, not as a thrown error. -/

/-- A per-file lint invocation as seen by the fan-out loop: the normalized
issues, or a thrown error. -/

def LintStep : Type := String → String → Except String (List LintIssue)

/-- The basename of a POSIX path: everything after the last slash. -/

def baseNameOf (cs : List Char) : List Char :=
  (cs.reverse.takeWhile (fun c => c ≠ '/')).reverse

/-- The extension of a basename: from its last dot, or empty when it has no
dot or only a leading dot. -/

def extFromBase (base : List Char) : List Char :=
  let afterLastDot := base.reverse.takeWhile (fun c => c ≠ '.')
  if afterLastDot.length = base.length then []
  else if afterLastDot.length + 1 = base.length then []
  else base.drop (base.length - afterLastDot.length - 1)

/-- Embedding of `path.extname` (POSIX): the part of the basename from its
last dot, or the empty string when the basename has no dot or only a
leading dot. -/

def extnameOf (cs : List Char) : List Char :=
  extFromBase (baseNameOf cs)

/-- `path.extname(filePath).toLowerCase()`. -/

def extnameLower (filePath : String) : String :=
  String.mk ((extnameOf filePath.toList).map Char.toLower)

/-- The extensions the fan-out processes at all. -/

def processableExts : List String := [".js", ".jsx", ".ts", ".tsx", ".py"]

/-- The extensions the fan-out runs ESLint on. -/

def lintableExts : List String := [".js", ".jsx", ".ts", ".tsx"]

/-- A lint issue tagged with its file path (the flattened response shape). -/

structure RepoLintIssue where
  line : Nat
  column : Nat
  severity : String
  message : String
  ruleId : Option String
  filePath : String
deriving DecidableEq, Repr

/-- A security issue tagged with its file path. -/

structure RepoSecurityIssue where
  title : String
  description : String
  location : String
  filePath : String
deriving DecidableEq, Repr

/-- The accumulator built during the loop, before flattening: issues are
grouped per file exactly as the `push({filePath, issues})` calls build them. -/

structure RepoAcc where
  lintIssues : List (String × List LintIssue)
  securityIssues : List (String × List SecurityIssue)
  fileCount : Nat
  processedFiles : List String
deriving Repr

/-- The final aggregate result, after the two `flatMap` flattening passes. -/

structure RepoResults where
  lintIssues : List RepoLintIssue
  securityIssues : List RepoSecurityIssue
  fileCount : Nat
  processedFiles : List String
deriving DecidableEq, Repr

/-- One iteration of the `for (const [filePath, content] of ...)` loop. -/

def processFile (lintStep : LintStep) (acc : RepoAcc)
    (filePath content : String) : RepoAcc :=
  let fileExt := extnameLower filePath
  if fileExt ∈ processableExts then
    match (if fileExt ∈ lintableExts then lintStep content fileExt
           else Except.ok []) with
    | Except.error _ => acc
    | Except.ok lintResult =>
      let acc1 :=
        if lintResult.length > 0 then
          { acc with lintIssues := acc.lintIssues ++ [(filePath, lintResult)] }
        else acc
      let securityResult := scanForSecurityIssues content.toList fileExt
      let acc2 :=
        if securityResult.length > 0 then
          { acc1 with securityIssues := acc1.securityIssues ++ [(filePath, securityResult)] }
        else acc1
      { acc2 with processedFiles := acc2.processedFiles ++ [filePath] }
  else acc

/-- The lint flattening pass (`flatMap` with the spread adding `filePath`). -/

def flattenLint (grouped : List (String × List LintIssue)) : List RepoLintIssue :=
  grouped.flatMap (fun g => g.2.map (fun i =>
    { line := i.line, column := i.column, severity := i.severity,
      message := i.message, ruleId := i.ruleId, filePath := g.1 }))

/-- The security flattening pass. -/

def flattenSecurity (grouped : List (String × List SecurityIssue)) : List RepoSecurityIssue :=
  grouped.flatMap (fun g => g.2.map (fun i =>
    { title := i.title, description := i.description,
      location := i.location, filePath := g.1 }))

/-- Embedding of `processRepositoryFiles(files)`. -/

def processRepositoryFiles (lintStep : LintStep)
    (files : List (String × String)) : RepoResults :=
  let init : RepoAcc :=
    { lintIssues := [], securityIssues := [],
      fileCount := files.length, processedFiles := [] }
  let r := files.foldl (fun acc fc => processFile lintStep acc fc.1 fc.2) init
  { lintIssues := flattenLint r.lintIssues,
    securityIssues := flattenSecurity r.securityIssues,
    fileCount := r.fileCount,
    processedFiles := r.processedFiles }

/-- A lint step that never throws and never reports issues. -/

def cleanLintStep : LintStep := fun _ _ => Except.ok []

/-- A file runs to completion exactly when its extension is processable and
its (possible) lint invocation does not throw. -/

def fileProcessedOk (lintStep : LintStep) (filePath content : String) : Bool :=
  let fileExt := extnameLower filePath
  fileExt ∈ processableExts &&
    (if fileExt ∈ lintableExts then (lintStep content fileExt).isOk else true)

/-! ## The snippet language classifier -/

/-- Embedding of `guessFileExtension(code)` (second version): a chain of
substring checks, falling back to `.js`. -/

def guessFileExtension (code : String) : String :=
  if containsStr code "import React" ||
     (containsStr code "class" && containsStr code "extends React.Component") ||
     containsStr code "ReactDOM.render" then
    if containsStr code "tsx" then ".tsx" else ".jsx"
  else if containsStr code "function" || containsStr code "=>" ||
          containsStr code "const" || containsStr code "let" ||
          containsStr code "var" then ".js"
  else if containsStr code "<!DOCTYPE html>" || containsStr code "<html>" then ".html"
  else if containsStr code "@import" ||
          (containsStr code "\x7b\x7d" && containsStr code ";") then ".css"
  else if containsStr code "def " || containsStr code "import " ||
          containsStr code "class " then ".py"
  else ".js"

/-! ## The GitHub URL parser and repository file collector
(`src/utils/githubProcessor.js`) -/

/-- The suffix of `cs` after the first occurrence of `needle`, if any. -/

def afterSub (needle : List Char) : List Char → Option (List Char)
  | [] => none
  | c :: rest =>
    if needle.isPrefixOf (c :: rest) then some ((c :: rest).drop needle.length)
    else afterSub needle rest

/-- Modelled from the spec: the `new URL(url)` constructor is a platform
capability, not repository code.  For an absolute URL this model extracts
the hostname (after `://`, up to the first of `/ : ? #`) and the pathname
(from the first `/` after the host, up to `?` or `#`, defaulting to `/`),
and fails when no `://` is present. -/

def parseUrlHostPath (url : String) : Option (String × String) :=
  match afterSub "://".toList url.toList with
  | none => none
  | some rest =>
    let hostname := rest.takeWhile (fun c => c ≠ '/' && c ≠ ':' && c ≠ '?' && c ≠ '#')
    let afterHost := rest.drop hostname.length
    let withoutPort := afterHost.dropWhile (fun c => c ≠ '/' && c ≠ '?' && c ≠ '#')
    let pathname := withoutPort.takeWhile (fun c => c ≠ '?' && c ≠ '#')
    some (String.mk hostname,
      if pathname = [] then "/" else String.mk pathname)

/-- Embedding of `parseGitHubUrl(url)`: reject when the hostname does not
contain `github.com`, then read owner and repository from the first two
non-empty path segments. -/

def parseGitHubUrl (url : String) : Except String (String × String) :=
  match parseUrlHostPath url with
  | none => Except.error "Invalid GitHub URL: Invalid URL"
  | some (hostname, pathname) =>
    if containsStr hostname "github.com" then
      match (splitOnChar '/' pathname.toList).filter (fun s => s ≠ []) with
      | owner :: repo :: _ => Except.ok (String.mk owner, String.mk repo)
      | _ => Except.error "Invalid GitHub URL: Invalid GitHub repository URL format"
    else Except.error "Invalid GitHub URL: Not a GitHub URL"

/-- A directory tree as `readdir` exposes it: named files and named
directories with entries. -/

inductive FsTree where
  | file (name : String) : FsTree
  | dir (name : String) (entries : List FsTree) : FsTree

/-- The fixed exclusion set of `getCodeFiles`. -/

def excludedDirs : List String :=
  ["node_modules", ".git", "dist", "build", "out", ".next",
   "coverage", "__pycache__", "venv", "env", ".venv"]

/-- The default supported extensions of `getCodeFiles`. -/

def codeExtensions : List String := [".js", ".jsx", ".py"]

/-- `path.join(currentDir, entry.name)` for the simple names occurring in a
fetched tree. -/

def fsJoin (dir name : String) : String := dir ++ "/" ++ name

/-- Embedding of the `scanDirectory` recursion inside `getCodeFiles`:
excluded directories are not recursed into at all; files are kept when the
lowercased extension of their name is supported. -/

def scanDirectory (exts : List String) : List FsTree → String → List String
  | [], _ => []
  | FsTree.file name :: rest, currentDir =>
    (if extnameLower name ∈ exts then [fsJoin currentDir name] else []) ++
      scanDirectory exts rest currentDir
  | FsTree.dir name entries :: rest, currentDir =>
    (if name ∈ excludedDirs then []
     else scanDirectory exts entries (fsJoin currentDir name)) ++
      scanDirectory exts rest currentDir

/-- Embedding of `getCodeFiles(dir)` with the default extension list. -/

def getCodeFiles (dir : String) (entries : List FsTree) : List String :=
  scanDirectory codeExtensions entries dir

mutual
/-- Empty out the entries of every excluded directory, anywhere in the
tree. -/
def pruneTree : FsTree → FsTree
  | FsTree.file name => FsTree.file name
  | FsTree.dir name entries =>
    FsTree.dir name (if name ∈ excludedDirs then [] else pruneForest entries)

def pruneForest : List FsTree → List FsTree
  | [] => []
  | t :: ts => pruneTree t :: pruneForest ts
end

mutual
/-- Every file name in the tree is slash-free (true of any tree produced by
`readdir` entry names). -/
def treeNamesOk : FsTree → Bool
  | FsTree.file name => !(name.toList.contains '/')
  | FsTree.dir _ entries => forestNamesOk entries

def forestNamesOk : List FsTree → Bool
  | [] => true
  | t :: ts => treeNamesOk t && forestNamesOk ts
end

/-! ## The POST request handler

External collaborators are parameters: `fetchRepo` stands for
`processRepository` (clone, collect, read — or throw), `lintStep` for the
`lintCode` invocation, `ai` for `getAIReview` (which never throws: its own
`catch` returns the empty string).  The handler additionally returns a trace
of the collaborator calls it made, in order, so that "no fetch was
attempted" is a statement about the trace. -/

/-- The collaborator capabilities the handler consumes. -/

structure Env where
  lintStep : LintStep
  fetchRepo : String → Except String (List (String × String))
  ai : String → String

/-- One observable external call. -/

inductive Effect where
  | lintRun : Effect
  | fetch (url : String) : Effect
  | aiRun : Effect
deriving DecidableEq, Repr

/-- The successful payload of a snippet analysis. -/

structure SnippetReport where
  lintIssues : List LintIssue
  securityIssues : List SecurityIssue
  aiReview : String
deriving DecidableEq, Repr

/-- The successful payload of a repository analysis. -/

structure RepoReport where
  repositoryUrl : String
  fileCount : Nat
  processedFiles : List String
  lintIssues : List RepoLintIssue
  securityIssues : List RepoSecurityIssue
  aiReview : String
deriving DecidableEq, Repr

/-- A response: HTTP status, the `error` field of an error body, and the
payload of a success body. -/

structure ApiResponse where
  status : Nat
  error : Option String
  snippet : Option SnippetReport
  repo : Option RepoReport
deriving DecidableEq, Repr

/-- A `{ error }` response with the given status. -/

def errorResponse (status : Nat) (msg : String) : ApiResponse :=
  { status := status, error := some msg, snippet := none, repo := none }

/-- The `// File: ...` sample concatenation fed to the Advisor for a
repository. -/

def combineSample (sample : List (String × String)) : String :=
  String.intercalate "\n\n"
    (sample.map (fun pc => "// File: " ++ pc.1 ++ "\n\n" ++ pc.2))

/-- Embedding of the `POST(request)` handler body, for a parsed
`{type, content}` request.  A missing `content` is the empty string (both
are falsy). -/

def postHandler (env : Env) (type content : String) : ApiResponse × List Effect :=
  if content = "" then
    (errorResponse 400 "No content provided", [])
  else if type = "code" then
    let fileExt := guessFileExtension content
    if fileExt ≠ ".py" && fileExt ≠ ".js" && fileExt ≠ ".jsx" then
      (errorResponse 400
        "Unsupported file type. Only Python and JavaScript/JSX are supported.", [])
    else
      match env.lintStep content fileExt with
      | Except.error e =>
        (errorResponse 500 ("Failed to analyze code: " ++ e), [Effect.lintRun])
      | Except.ok lintIssues =>
        let securityIssues := scanForSecurityIssues content.toList fileExt
        let aiReview := env.ai content
        ({ status := 200, error := none,
           snippet := some { lintIssues := lintIssues,
                             securityIssues := securityIssues,
                             aiReview := aiReview },
           repo := none },
         [Effect.lintRun, Effect.aiRun])
  else if type = "repo" then
    if containsStr content "github.com" then
      match env.fetchRepo content with
      | Except.error e =>
        (errorResponse 500 ("Error processing repository: " ++ e),
         [Effect.fetch content])
      | Except.ok files =>
        if files.length = 0 then
          (errorResponse 404 "No JavaScript or Python files found in the repository.",
           [Effect.fetch content])
        else
          let results := processRepositoryFiles env.lintStep files
          let sampleFiles := files.take 3
          let aiReview := env.ai (combineSample sampleFiles)
          ({ status := 200, error := none, snippet := none,
             repo := some { repositoryUrl := content,
                            fileCount := results.fileCount,
                            processedFiles := results.processedFiles,
                            lintIssues := results.lintIssues,
                            securityIssues := results.securityIssues,
                            aiReview := aiReview } },
           [Effect.fetch content, Effect.lintRun, Effect.aiRun])
    else
      (errorResponse 400
        "Invalid GitHub URL. Please provide a valid GitHub repository URL.", [])
  else
    (errorResponse 400 "Invalid request type. Must be \x27code\x27 or \x27repo\x27.", [])

/-! ## The duplicate filters of `handleSubmit` (`src/app/page.js`)

Both passes are the same `reduce`: keep an element when no earlier survivor
has the same identifier string, where the identifier is a template literal
gluing two fields with a `-`. -/

/-- Embedding of the `reduce` accumulator: `unique.some(...) ? unique
: [...unique, item]`, folded over the list. -/

def dedupeBy {α κ : Type} [DecidableEq κ] (key : α → κ) (l : List α) : List α :=
  l.foldl
    (fun unique item =>
      if unique.any (fun i => decide (key i = key item)) then unique
      else unique ++ [item]) []

/-- Decimal rendering of a line number, as the template literal
`${item.line}` stringifies a (non-negative integer) JavaScript number.
The fuel argument only serves termination; `n + 1` units always suffice. -/

def natToCharsAux : Nat → Nat → List Char
  | 0, _ => []
  | fuel + 1, n =>
    if n < 10 then [Nat.digitChar n]
    else natToCharsAux fuel (n / 10) ++ [Nat.digitChar (n % 10)]

/-- The decimal digit string of `n`. -/

def natToChars (n : Nat) : List Char :=
  natToCharsAux (n + 1) n

/-- The identifier `line + "-" + message` of the lint pass, on characters. -/

def lintIdent (i : RepoLintIssue) : List Char :=
  natToChars i.line ++ '-' :: i.message.toList

/-- The identifier `location + "-" + title` of the security pass. -/

def securityIdent (i : RepoSecurityIssue) : List Char :=
  i.location.toList ++ '-' :: i.title.toList

/-- The lint duplicate-filter in `handleSubmit`. -/

def dedupeLint (l : List RepoLintIssue) : List RepoLintIssue :=
  dedupeBy lintIdent l

/-- The security duplicate-filter in `handleSubmit`. -/

def dedupeSecurity (l : List RepoSecurityIssue) : List RepoSecurityIssue :=
  dedupeBy securityIdent l

/-! ## Concrete collaborators for the scenario theorems -/

/-- A Linter capability that fails (throws) on the content `"a;"` and
reports nothing otherwise. -/

def failingLinter : Linter :=
  fun c _ => if c = "a;" then Except.error "Parsing error" else Except.ok []

/-- The fan-out view of `lintCode` over `failingLinter`: the parse failure
is caught inside `lintCode`, so the step itself never throws. -/

def caughtLintStep : LintStep :=
  fun c e => Except.ok (lintCodeResult failingLinter c e)

/-- A lint step whose invocation itself throws on the content `"a;"`
(modelling a filesystem failure escaping `lintCode`). -/

def throwingLintStep : LintStep :=
  fun c _ => if c = "a;" then Except.error "EMFILE" else Except.ok []

/-- An environment whose repository fetch always fails. -/

def fetchFailEnv : Env :=
  { lintStep := cleanLintStep,
    fetchRepo := fun _ => Except.error "fatal: repository not found",
    ai := fun _ => "" }

/-- A security issue whose location contains a hyphen. -/

def secIssueGlueA : RepoSecurityIssue :=
  { title := "b-c", description := "d", location := "a", filePath := "f" }

/-- A distinct `(location, title)` pair gluing to the same identifier. -/

def secIssueGlueB : RepoSecurityIssue :=
  { title := "c", description := "d", location := "a-b", filePath := "f" }

/-- A security issue with a scanner-shaped, hyphen-free location. -/

def secIssueLineOne : RepoSecurityIssue :=
  { title := "T", description := "D", location := "Line 1", filePath := "f" }

/-! ### Properties of the duplicate filter -/

/-- Recursive restatement of `dedupeBy` carrying the set of identifiers
seen so far. -/

def dedupeRec {α κ : Type} [DecidableEq κ] (key : α → κ) (seen : List κ) :
    List α → List α
  | [] => []
  | x :: xs =>
    if key x ∈ seen then dedupeRec key seen xs
    else x :: dedupeRec key (key x :: seen) xs

/-- The numeric value of a digit character. -/

def digitVal (c : Char) : Nat := c.toNat - 48

/-- Reading a digit string back as a number. -/

def charsVal (cs : List Char) : Nat :=
  cs.foldl (fun a c => a * 10 + digitVal c) 0

/-- The duplicate class of the lint filter, as the spec describes it. -/

def lintPair (i : RepoLintIssue) : Nat × String := (i.line, i.message)

/-- The duplicate class of the security filter, as the spec describes it. -/

def securityPair (i : RepoSecurityIssue) : String × String := (i.location, i.title)

/-- `splitOnChar` never returns the empty list. -/

theorem splitOnChar_ne_nil (sep : Char) (cs : List Char) :
    splitOnChar sep cs ≠ [] := by
  cases cs with
  | nil => simp [splitOnChar]
  | cons c rest =>
    simp only [splitOnChar]
    split
    · simp
    · split <;> simp

/-- The number of chunks produced by splitting is the separator count plus
one, exactly as the line-number computation in the scanner requires. -/

theorem splitOnChar_length (sep : Char) (cs : List Char) :
    (splitOnChar sep cs).length = cs.count sep + 1 := by
  induction cs with
  | nil => simp [splitOnChar]
  | cons c rest ih =>
    by_cases h : c = sep
    · subst h
      simp [splitOnChar, List.count_cons, ih]
    · rw [splitOnChar]
      rw [if_neg h]
      rcases hsplit : splitOnChar sep rest with _ | ⟨hd, tl⟩
      · exact absurd hsplit (splitOnChar_ne_nil sep rest)
      · have := ih
        rw [hsplit] at this
        simp only [List.length_cons] at this ⊢
        rw [List.count_cons]
        simp [h, this]

/-- Unrolling the scanner fold: the result is the concatenation, in catalog
order, of the findings of exactly the applicable rules. -/

theorem foldl_scanStep_eq (code : List Char) (fileExt : String) :
    ∀ (l : List SecurityPattern) (acc : List SecurityIssue),
      l.foldl (scanStep code fileExt) acc =
        acc ++ (l.filter (fun p => langApplies p fileExt)).flatMap (ruleFindings code) := by
  intro l
  induction l with
  | nil => intro acc; simp
  | cons p rest ih =>
    intro acc
    by_cases h : langApplies p fileExt
    · simp [scanStep, h, ih, List.flatMap_cons]
    · simp [scanStep, h, ih]

theorem scan_eq_filter_flatMap (code : List Char) (fileExt : String) :
    scanForSecurityIssues code fileExt =
      (securityPatterns.filter (fun p => langApplies p fileExt)).flatMap
        (ruleFindings code) := by
  simpa using foldl_scanStep_eq code fileExt securityPatterns []

theorem lintCode_fst (linter : Linter) (code ext dirName : String) (st : TempState) :
    (lintCode linter code ext dirName st).1 = lintCodeResult linter code ext := by
  unfold lintCode lintCodeResult
  cases linter code ext <;> rfl

theorem processFile_processedFiles (lintStep : LintStep) (acc : RepoAcc)
    (fp c : String) :
    (processFile lintStep acc fp c).processedFiles =
      if fileProcessedOk lintStep fp c then acc.processedFiles ++ [fp]
      else acc.processedFiles := by
  unfold processFile fileProcessedOk
  by_cases hproc : extnameLower fp ∈ processableExts
  · by_cases hlint : extnameLower fp ∈ lintableExts
    · cases hres : lintStep c (extnameLower fp) with
      | error e =>
        simp [hproc, hlint, hres, Except.isOk, Except.toBool]
      | ok r =>
        simp [hproc, hlint, hres, Except.isOk, Except.toBool,
          apply_ite RepoAcc.processedFiles]
    · simp [hproc, hlint, apply_ite RepoAcc.processedFiles]
  · simp [hproc]

theorem processFile_fileCount (lintStep : LintStep) (acc : RepoAcc)
    (fp c : String) :
    (processFile lintStep acc fp c).fileCount = acc.fileCount := by
  unfold processFile
  by_cases hproc : extnameLower fp ∈ processableExts
  · by_cases hlint : extnameLower fp ∈ lintableExts
    · cases hres : lintStep c (extnameLower fp) with
      | error e => simp [hproc, hlint, hres]
      | ok r => simp [hproc, hlint, hres, apply_ite RepoAcc.fileCount]
    · simp [hproc, hlint, apply_ite RepoAcc.fileCount]
  · simp [hproc]

theorem foldl_processFile_processedFiles (lintStep : LintStep) :
    ∀ (files : List (String × String)) (acc : RepoAcc),
      (files.foldl (fun acc fc => processFile lintStep acc fc.1 fc.2) acc).processedFiles =
        acc.processedFiles ++
          (files.filter (fun fc => fileProcessedOk lintStep fc.1 fc.2)).map Prod.fst := by
  intro files
  induction files with
  | nil => intro acc; simp
  | cons fc rest ih =>
    intro acc
    simp only [List.foldl_cons]
    rw [ih]
    by_cases h : fileProcessedOk lintStep fc.1 fc.2
    · rw [List.filter_cons_of_pos (by simpa using h)]
      rw [processFile_processedFiles, if_pos h]
      simp
    · rw [List.filter_cons_of_neg (by simpa using h)]
      rw [processFile_processedFiles, if_neg h]

theorem foldl_processFile_fileCount (lintStep : LintStep) :
    ∀ (files : List (String × String)) (acc : RepoAcc),
      (files.foldl (fun acc fc => processFile lintStep acc fc.1 fc.2) acc).fileCount =
        acc.fileCount := by
  intro files
  induction files with
  | nil => intro acc; rfl
  | cons fc rest ih =>
    intro acc
    simp only [List.foldl_cons]
    rw [ih, processFile_fileCount]

/-- The files a fan-out run adds to `processedFiles`: exactly those whose
pipeline ran to completion, in input order. -/

theorem processRepositoryFiles_processedFiles (lintStep : LintStep)
    (files : List (String × String)) :
    (processRepositoryFiles lintStep files).processedFiles =
      (files.filter (fun fc => fileProcessedOk lintStep fc.1 fc.2)).map Prod.fst := by
  unfold processRepositoryFiles
  simp only
  rw [foldl_processFile_processedFiles]
  simp

/-- `fileCount` is frozen at collection size before the loop starts. -/

theorem processRepositoryFiles_fileCount (lintStep : LintStep)
    (files : List (String × String)) :
    (processRepositoryFiles lintStep files).fileCount = files.length := by
  unfold processRepositoryFiles
  simp only
  rw [foldl_processFile_fileCount]

theorem scanDirectory_prune (exts : List String) :
    ∀ (ts : List FsTree) (d : String),
      scanDirectory exts (pruneForest ts) d = scanDirectory exts ts d := by
  intro ts d
  induction ts, d using scanDirectory.induct exts with
  | case1 d => rfl
  | case2 name rest d ih =>
    simp only [pruneForest, pruneTree, scanDirectory, ih]
  | case3 name entries rest d ih₁ ih₂ =>
    by_cases h : name ∈ excludedDirs
    · simp only [pruneForest, pruneTree, if_pos h, scanDirectory, ih₂]
    · simp only [pruneForest, pruneTree, if_neg h, scanDirectory, ih₁, ih₂]

theorem takeWhile_append_stop {α : Type} (p : α → Bool) :
    ∀ (xs : List α) (y : α) (ys : List α), (∀ x ∈ xs, p x = true) →
      p y = false → (xs ++ y :: ys).takeWhile p = xs := by
  intro xs
  induction xs with
  | nil =>
    intro y ys _ hy
    simp [List.takeWhile_cons, hy]
  | cons x xs ih =>
    intro y ys hxs hy
    have hx : p x = true := hxs x (List.mem_cons_self x xs)
    simp only [List.cons_append, List.takeWhile_cons, hx, if_true]
    rw [ih y ys (fun a ha => hxs a (List.mem_cons_of_mem x ha)) hy]

theorem takeWhile_all {α : Type} (p : α → Bool) :
    ∀ (xs : List α), (∀ x ∈ xs, p x = true) → xs.takeWhile p = xs := by
  intro xs
  induction xs with
  | nil => intro _; rfl
  | cons x xs ih =>
    intro hxs
    simp only [List.takeWhile_cons, hxs x (List.mem_cons_self x xs), if_true]
    rw [ih (fun a ha => hxs a (List.mem_cons_of_mem x ha))]

theorem baseNameOf_of_no_slash {cs : List Char} (h : cs.contains '/' = false) :
    baseNameOf cs = cs := by
  have hmem : '/' ∉ cs := by simpa using h
  unfold baseNameOf
  rw [takeWhile_all _ cs.reverse, List.reverse_reverse]
  intro x hx
  have hxcs : x ∈ cs := List.mem_reverse.1 hx
  have hne : x ≠ '/' := fun heq => hmem (heq ▸ hxcs)
  simpa using hne

theorem baseNameOf_fsJoin (d name : String)
    (h : name.toList.contains '/' = false) :
    baseNameOf (fsJoin d name).toList = name.toList := by
  have hmem : '/' ∉ name.toList := by simpa using h
  have hjoin : (fsJoin d name).toList = d.toList ++ '/' :: name.toList := by
    have hassoc : (fsJoin d name).toList = (d.toList ++ ['/']) ++ name.toList := rfl
    rw [hassoc, List.append_assoc, List.singleton_append]
  rw [hjoin]
  unfold baseNameOf
  have hrev : (d.toList ++ '/' :: name.toList).reverse =
      name.toList.reverse ++ '/' :: d.toList.reverse := by
    simp
  rw [hrev]
  rw [takeWhile_append_stop _ name.toList.reverse '/' d.toList.reverse
      ?_ (by simp), List.reverse_reverse]
  intro x hx
  have hxn : x ∈ name.toList := List.mem_reverse.1 hx
  have hne : x ≠ '/' := fun heq => hmem (heq ▸ hxn)
  simpa using hne

theorem extnameLower_fsJoin (d name : String)
    (h : name.toList.contains '/' = false) :
    extnameLower (fsJoin d name) = extnameLower name := by
  unfold extnameLower extnameOf
  rw [baseNameOf_fsJoin d name h, baseNameOf_of_no_slash h]

/-- Every path the collector returns carries a supported extension, given
that file names contain no slash. -/

theorem scanDirectory_ext_sound (exts : List String) :
    ∀ (ts : List FsTree) (d : String), forestNamesOk ts = true →
      ∀ p ∈ scanDirectory exts ts d, extnameLower p ∈ exts := by
  intro ts d
  induction ts, d using scanDirectory.induct exts with
  | case1 d =>
    intro _ p hp
    simp [scanDirectory] at hp
  | case2 name rest d ih =>
    intro hok p hp
    rw [forestNamesOk, treeNamesOk, Bool.and_eq_true] at hok
    rw [scanDirectory] at hp
    rcases List.mem_append.1 hp with hp | hp
    · by_cases hcond : extnameLower name ∈ exts
      · rw [if_pos hcond] at hp
        simp only [List.mem_singleton] at hp
        subst hp
        rw [extnameLower_fsJoin d name (by simpa using hok.1)]
        exact hcond
      · rw [if_neg hcond] at hp
        simp at hp
    · exact ih hok.2 p hp
  | case3 name entries rest d ih₁ ih₂ =>
    intro hok p hp
    rw [forestNamesOk, treeNamesOk, Bool.and_eq_true] at hok
    rw [scanDirectory] at hp
    rcases List.mem_append.1 hp with hp | hp
    · by_cases h : name ∈ excludedDirs
      · rw [if_pos h] at hp
        simp at hp
      · rw [if_neg h] at hp
        exact ih₁ hok.1 p hp
    · exact ih₂ hok.2 p hp

theorem dedupeRec_seen_congr {α κ : Type} [DecidableEq κ] (key : α → κ) :
    ∀ (l : List α) (s₁ s₂ : List κ), (∀ k, k ∈ s₁ ↔ k ∈ s₂) →
      dedupeRec key s₁ l = dedupeRec key s₂ l := by
  intro l
  induction l with
  | nil => intro s₁ s₂ _; rfl
  | cons x xs ih =>
    intro s₁ s₂ hs
    simp only [dedupeRec]
    by_cases hx : key x ∈ s₁
    · rw [if_pos hx, if_pos ((hs (key x)).1 hx), ih s₁ s₂ hs]
    · rw [if_neg hx, if_neg (fun h => hx ((hs (key x)).2 h))]
      congr 1
      refine ih _ _ (fun k => ?_)
      simp [hs k]

theorem foldl_dedupe_eq {α κ : Type} [DecidableEq κ] (key : α → κ) :
    ∀ (l : List α) (acc : List α),
      l.foldl
        (fun unique item =>
          if unique.any (fun i => decide (key i = key item)) then unique
          else unique ++ [item]) acc =
      acc ++ dedupeRec key (acc.map key) l := by
  intro l
  induction l with
  | nil => intro acc; simp [dedupeRec]
  | cons x xs ih =>
    intro acc
    have hcond : (acc.any (fun i => decide (key i = key x)) = true) ↔
        key x ∈ acc.map key := by
      simp only [List.any_eq_true, decide_eq_true_eq, List.mem_map]
    by_cases h : key x ∈ acc.map key
    · simp only [List.foldl_cons]
      rw [if_pos (hcond.2 h)]
      rw [ih acc]
      simp [dedupeRec, h]
    · simp only [List.foldl_cons]
      rw [if_neg (fun hc => h (hcond.1 hc))]
      rw [ih (acc ++ [x])]
      simp only [dedupeRec]
      rw [if_neg h, List.map_append, List.append_assoc]
      simp only [List.map_cons, List.map_nil, List.singleton_append]
      congr 2
      exact dedupeRec_seen_congr key xs _ _ (fun k => by simp [or_comm])

/-- `dedupeBy` is the recursive first-wins filter. -/

theorem dedupeBy_eq_dedupeRec {α κ : Type} [DecidableEq κ] (key : α → κ)
    (l : List α) : dedupeBy key l = dedupeRec key [] l := by
  unfold dedupeBy
  rw [foldl_dedupe_eq key l []]
  simp only [List.map_nil, List.nil_append]

theorem dedupeRec_sublist {α κ : Type} [DecidableEq κ] (key : α → κ) :
    ∀ (l : List α) (seen : List κ), (dedupeRec key seen l).Sublist l := by
  intro l
  induction l with
  | nil => intro seen; simp [dedupeRec]
  | cons x xs ih =>
    intro seen
    simp only [dedupeRec]
    split
    · exact (ih seen).cons x
    · exact (ih (key x :: seen)).cons₂ x

/-- Survivors are order-preserving: the duplicate filter returns a sublist
of its input. -/

theorem dedupeBy_sublist {α κ : Type} [DecidableEq κ] (key : α → κ)
    (l : List α) : (dedupeBy key l).Sublist l := by
  rw [dedupeBy_eq_dedupeRec]
  exact dedupeRec_sublist key l []

theorem dedupeRec_find? {α κ : Type} [DecidableEq κ] (key : α → κ) :
    ∀ (l : List α) (seen : List κ) (x : α), key x ∉ seen →
      (dedupeRec key seen l).find? (fun y => decide (key y = key x)) =
        l.find? (fun y => decide (key y = key x)) := by
  intro l
  induction l with
  | nil => intro seen x _; simp [dedupeRec]
  | cons z zs ih =>
    intro seen x hx
    simp only [dedupeRec]
    by_cases hz : key z ∈ seen
    · rw [if_pos hz]
      have hne : ¬ key z = key x := fun h => hx (h ▸ hz)
      rw [List.find?_cons_of_neg _ (by simpa using hne)]
      exact ih seen x hx
    · rw [if_neg hz]
      by_cases hzx : key z = key x
      · rw [List.find?_cons_of_pos _ (by simpa using hzx),
          List.find?_cons_of_pos _ (by simpa using hzx)]
      · rw [List.find?_cons_of_neg _ (by simpa using hzx),
          List.find?_cons_of_neg _ (by simpa using hzx)]
        refine ih (key z :: seen) x ?_
        simp only [List.mem_cons]
        push_neg
        exact ⟨fun h => hzx h.symm, hx⟩

/-- First occurrence wins: for any element of the input, the surviving
representative of its duplicate class is the first input element with the
same identifier. -/

theorem dedupeBy_find? {α κ : Type} [DecidableEq κ] (key : α → κ)
    (l : List α) (x : α) :
    (dedupeBy key l).find? (fun y => decide (key y = key x)) =
      l.find? (fun y => decide (key y = key x)) := by
  rw [dedupeBy_eq_dedupeRec]
  exact dedupeRec_find? key l [] x (by simp)

theorem dedupeRec_keys_fresh {α κ : Type} [DecidableEq κ] (key : α → κ) :
    ∀ (l : List α) (seen : List κ) (y : α), y ∈ dedupeRec key seen l →
      key y ∉ seen := by
  intro l
  induction l with
  | nil => intro seen y h; simp [dedupeRec] at h
  | cons x xs ih =>
    intro seen y hy
    simp only [dedupeRec] at hy
    by_cases hx : key x ∈ seen
    · rw [if_pos hx] at hy
      exact ih seen y hy
    · rw [if_neg hx] at hy
      rcases List.mem_cons.1 hy with h | h
      · subst h; exact hx
      · have := ih (key x :: seen) y h
        exact fun hk => this (List.mem_cons_of_mem _ hk)

theorem dedupeRec_pairwise {α κ : Type} [DecidableEq κ] (key : α → κ) :
    ∀ (l : List α) (seen : List κ),
      (dedupeRec key seen l).Pairwise (fun a b => key a ≠ key b) := by
  intro l
  induction l with
  | nil => intro seen; simp [dedupeRec]
  | cons x xs ih =>
    intro seen
    simp only [dedupeRec]
    split
    · exact ih seen
    · refine List.Pairwise.cons (fun y hy => ?_) (ih (key x :: seen))
      have := dedupeRec_keys_fresh key xs (key x :: seen) y hy
      exact fun h => this (by simp [h.symm])

theorem dedupeRec_id_of_pairwise {α κ : Type} [DecidableEq κ] (key : α → κ) :
    ∀ (l : List α) (seen : List κ),
      l.Pairwise (fun a b => key a ≠ key b) →
      (∀ y ∈ l, key y ∉ seen) →
      dedupeRec key seen l = l := by
  intro l
  induction l with
  | nil => intro seen _ _; rfl
  | cons x xs ih =>
    intro seen hpw hfresh
    simp only [dedupeRec]
    rw [if_neg (hfresh x (List.mem_cons_self x xs))]
    congr 1
    refine ih (key x :: seen) (List.Pairwise.sublist (List.sublist_cons_self x xs) hpw)
      (fun y hy => ?_)
    have hxy : key x ≠ key y := (List.pairwise_cons.1 hpw).1 y hy
    simp only [List.mem_cons]
    push_neg
    exact ⟨fun h => hxy h.symm, hfresh y (List.mem_cons_of_mem x hy)⟩

/-- The duplicate filter is idempotent. -/

theorem dedupeBy_idem {α κ : Type} [DecidableEq κ] (key : α → κ)
    (l : List α) : dedupeBy key (dedupeBy key l) = dedupeBy key l := by
  rw [dedupeBy_eq_dedupeRec, dedupeBy_eq_dedupeRec]
  exact dedupeRec_id_of_pairwise key _ []
    (dedupeRec_pairwise key l []) (by simp)

/-- Two identifier functions inducing the same duplicate relation on the
elements at hand produce the same filtered list. -/

theorem dedupeRec_key_congr {α κ₁ κ₂ : Type} [DecidableEq κ₁] [DecidableEq κ₂]
    (k₁ : α → κ₁) (k₂ : α → κ₂) :
    ∀ (l ws : List α),
      (∀ x, (x ∈ l ∨ x ∈ ws) → ∀ y, (y ∈ l ∨ y ∈ ws) → (k₁ x = k₁ y ↔ k₂ x = k₂ y)) →
      dedupeRec k₁ (ws.map k₁) l = dedupeRec k₂ (ws.map k₂) l := by
  intro l
  induction l with
  | nil => intro ws _; rfl
  | cons x xs ih =>
    intro ws hiff
    have hx : x ∈ x :: xs ∨ x ∈ ws := Or.inl (List.mem_cons_self x xs)
    have hcond : k₁ x ∈ ws.map k₁ ↔ k₂ x ∈ ws.map k₂ := by
      simp only [List.mem_map]
      constructor
      · rintro ⟨w, hw, hk⟩
        exact ⟨w, hw, (hiff w (Or.inr hw) x hx).1 hk⟩
      · rintro ⟨w, hw, hk⟩
        exact ⟨w, hw, (hiff w (Or.inr hw) x hx).2 hk⟩
    simp only [dedupeRec]
    by_cases h : k₁ x ∈ ws.map k₁
    · rw [if_pos h, if_pos (hcond.1 h)]
      exact ih ws (fun a ha b hb =>
        hiff a (ha.imp_left (List.mem_cons_of_mem x)) b
          (hb.imp_left (List.mem_cons_of_mem x)))
    · rw [if_neg h, if_neg (fun hc => h (hcond.2 hc))]
      congr 1
      have : ∀ a, (a ∈ xs ∨ a ∈ x :: ws) → (a ∈ x :: xs ∨ a ∈ ws) := by
        intro a ha
        rcases ha with ha | ha
        · exact Or.inl (List.mem_cons_of_mem x ha)
        · rcases List.mem_cons.1 ha with ha | ha
          · exact Or.inl (ha ▸ List.mem_cons_self x xs)
          · exact Or.inr ha
      have := ih (x :: ws) (fun a ha b hb => hiff a (this a ha) b (this b hb))
      simpa using this

/-- `dedupeRec_key_congr` specialized to an empty seen set. -/

theorem dedupeBy_key_congr {α κ₁ κ₂ : Type} [DecidableEq κ₁] [DecidableEq κ₂]
    (k₁ : α → κ₁) (k₂ : α → κ₂) (l : List α)
    (hiff : ∀ x ∈ l, ∀ y ∈ l, (k₁ x = k₁ y ↔ k₂ x = k₂ y)) :
    dedupeBy k₁ l = dedupeBy k₂ l := by
  rw [dedupeBy_eq_dedupeRec, dedupeBy_eq_dedupeRec]
  have := dedupeRec_key_congr k₁ k₂ l []
    (fun x hx y hy => hiff x (by simpa using hx) y (by simpa using hy))
  simpa using this

/-! ### Identifier strings determine field pairs

The glued identifier `a ++ "-" ++ b` determines the pair `(a, b)` as soon as
`a` contains no hyphen.  For the lint pass `a` is a rendered line number, so
this always holds; for the security pass `a` is the location string, which
the scanner always produces hyphen-free (`"Line N"`), but which the filter
itself does not constrain. -/

theorem digitChar_mem_natToCharsAux :
    ∀ (fuel n : Nat) (c : Char), c ∈ natToCharsAux fuel n →
      ∃ d, d < 10 ∧ c = Nat.digitChar d := by
  intro fuel
  induction fuel with
  | zero => intro n c h; simp [natToCharsAux] at h
  | succ fuel ih =>
    intro n c h
    rw [natToCharsAux] at h
    by_cases hn : n < 10
    · rw [if_pos hn] at h
      simp only [List.mem_singleton] at h
      exact ⟨n, hn, h⟩
    · rw [if_neg hn] at h
      rcases List.mem_append.1 h with h | h
      · exact ih (n / 10) c h
      · simp only [List.mem_singleton] at h
        exact ⟨n % 10, Nat.mod_lt n (by norm_num), h⟩

theorem dash_not_mem_natToChars (n : Nat) : '-' ∉ natToChars n := by
  intro h
  obtain ⟨d, hd, hc⟩ := digitChar_mem_natToCharsAux (n + 1) n '-' h
  revert hc
  interval_cases d <;> decide

theorem charsVal_append_digit (cs : List Char) (c : Char) :
    charsVal (cs ++ [c]) = charsVal cs * 10 + digitVal c := by
  simp [charsVal, List.foldl_append]

theorem charsVal_natToCharsAux :
    ∀ (fuel n : Nat), n < 10 ^ fuel → charsVal (natToCharsAux fuel n) = n := by
  intro fuel
  induction fuel with
  | zero =>
    intro n h
    interval_cases n
    simp [natToCharsAux, charsVal]
  | succ fuel ih =>
    intro n h
    rw [natToCharsAux]
    by_cases hn : n < 10
    · rw [if_pos hn]
      have : charsVal [Nat.digitChar n] = digitVal (Nat.digitChar n) := by
        simp [charsVal]
      rw [this]
      revert hn
      intro hn
      interval_cases n <;> decide
    · rw [if_neg hn]
      rw [charsVal_append_digit]
      have hdiv : n / 10 < 10 ^ fuel := by
        rw [Nat.div_lt_iff_lt_mul (by norm_num : 0 < 10)]
        calc n < 10 ^ (fuel + 1) := h
        _ = 10 ^ fuel * 10 := by ring
      rw [ih (n / 10) hdiv]
      have hmod : digitVal (Nat.digitChar (n % 10)) = n % 10 := by
        have : n % 10 < 10 := Nat.mod_lt n (by norm_num)
        revert this
        generalize n % 10 = m
        intro hm
        interval_cases m <;> decide
      rw [hmod]
      omega

theorem natToChars_injective {m n : Nat} (h : natToChars m = natToChars n) :
    m = n := by
  have hm : charsVal (natToChars m) = m :=
    charsVal_natToCharsAux (m + 1) m
      (lt_of_lt_of_le (Nat.lt_pow_self (by norm_num) m)
        (Nat.pow_le_pow_right (by norm_num) (Nat.le_succ m)))
  have hn : charsVal (natToChars n) = n :=
    charsVal_natToCharsAux (n + 1) n
      (lt_of_lt_of_le (Nat.lt_pow_self (by norm_num) n)
        (Nat.pow_le_pow_right (by norm_num) (Nat.le_succ n)))
  rw [← hm, ← hn, h]

/-- Splitting a glued identifier at the separator: when neither left part
contains the separator, equal identifiers force equal parts. -/

theorem glue_split {a₁ a₂ b₁ b₂ : List Char}
    (h₁ : '-' ∉ a₁) (h₂ : '-' ∉ a₂)
    (h : a₁ ++ '-' :: b₁ = a₂ ++ '-' :: b₂) : a₁ = a₂ ∧ b₁ = b₂ := by
  induction a₁ generalizing a₂ with
  | nil =>
    cases a₂ with
    | nil => simpa using h
    | cons c cs =>
      simp only [List.nil_append, List.cons_append, List.cons.injEq] at h
      obtain ⟨hc, -⟩ := h
      subst hc
      exact absurd (List.mem_cons_self _ _) h₂
  | cons c cs ih =>
    cases a₂ with
    | nil =>
      simp only [List.cons_append, List.nil_append, List.cons.injEq] at h
      obtain ⟨hc, -⟩ := h
      subst hc
      exact absurd (List.mem_cons_self _ _) h₁
    | cons d ds =>
      simp only [List.cons_append, List.cons.injEq] at h
      have h₁' : '-' ∉ cs := fun hm => h₁ (List.mem_cons_of_mem c hm)
      have h₂' : '-' ∉ ds := fun hm => h₂ (List.mem_cons_of_mem d hm)
      obtain ⟨hcs, hbs⟩ := ih h₁' h₂' h.2
      exact ⟨by rw [h.1, hcs], hbs⟩

theorem stringToList_inj {s t : String} (h : s.toList = t.toList) : s = t := by
  cases s
  cases t
  simp only [String.toList] at h
  exact congrArg String.mk h

theorem lintIdent_iff_pair (x y : RepoLintIssue) :
    lintIdent x = lintIdent y ↔ lintPair x = lintPair y := by
  constructor
  · intro h
    obtain ⟨ha, hb⟩ :=
      glue_split (dash_not_mem_natToChars _) (dash_not_mem_natToChars _) h
    have h1 := natToChars_injective ha
    have h2 := stringToList_inj hb
    simp [lintPair, Prod.ext_iff, h1, h2]
  · intro h
    simp only [lintPair, Prod.mk.injEq] at h
    simp [lintIdent, h.1, h.2]

theorem securityIdent_iff_pair (x y : RepoSecurityIssue)
    (hx : '-' ∉ x.location.toList) (hy : '-' ∉ y.location.toList) :
    securityIdent x = securityIdent y ↔ securityPair x = securityPair y := by
  constructor
  · intro h
    obtain ⟨ha, hb⟩ := glue_split hx hy h
    have h1 := stringToList_inj ha
    have h2 := stringToList_inj hb
    simp [securityPair, Prod.ext_iff, h1, h2]
  · intro h
    simp only [securityPair, Prod.mk.injEq] at h
    simp [securityIdent, h.1, h.2]

/-- The lint filter deduplicates exactly by the `(line, message)` pair:
the glued identifier cannot collide because a rendered number contains no
hyphen. -/

theorem dedupeLint_eq_pair (l : List RepoLintIssue) :
    dedupeLint l = dedupeBy lintPair l :=
  dedupeBy_key_congr lintIdent lintPair l
    (fun x _ y _ => lintIdent_iff_pair x y)

/-- The security filter deduplicates by the `(location, title)` pair as long
as every location is hyphen-free (as all scanner-produced `"Line N"`
locations are). -/

theorem dedupeSecurity_eq_pair (l : List RepoSecurityIssue)
    (h : ∀ x ∈ l, '-' ∉ x.location.toList) :
    dedupeSecurity l = dedupeBy securityPair l :=
  dedupeBy_key_congr securityIdent securityPair l
    (fun x hx y hy => securityIdent_iff_pair x y (h x hx) (h y hy))

/-! ## Claim theorems -/

/-- Helper for cleanup reasoning: removing the fresh directory restores the
original directory set. -/

theorem filter_ne_append_singleton {dn : String} {l : List String}
    (h : dn ∉ l) : (l ++ [dn]).filter (fun d => d ≠ dn) = l := by
  rw [List.filter_append]
  have h2 : [dn].filter (fun d => decide (d ≠ dn)) = [] := by simp
  rw [h2, List.append_nil]
  apply List.filter_eq_self.2
  intro a ha
  have hne : a ≠ dn := fun heq => h (heq ▸ ha)
  simpa using hne

/-- C1: the scan produces findings only through rules whose language guard
accepts the file type: (i) every emitted finding comes from some applicable
catalog rule; (ii) a rule carrying a language list that excludes the file
type contributes nothing to the fold; (iii) on a repository with `a.py`
matching `os.system(...)` and `b.js` matching `innerHTML =`, the batch
yields exactly one finding per file, attributed to its own path, with the
`os.system` rule firing only on the Python file and the `innerHTML` rule
only on the JavaScript file. -/

theorem security_scan_language_scoped :
    (∀ (code : List Char) (fileExt : String) (f : SecurityIssue),
      f ∈ scanForSecurityIssues code fileExt →
        ∃ p ∈ securityPatterns, langApplies p fileExt = true ∧ f ∈ ruleFindings code p) ∧
    (∀ (code : List Char) (fileExt : String) (issues : List SecurityIssue)
      (p : SecurityPattern) (ls : List String),
      p.languages = some ls → fileTypeOf fileExt ∉ ls →
        scanStep code fileExt issues p = issues) ∧
    (processRepositoryFiles cleanLintStep
        [("a.py", "os.system(cmd)"), ("b.js", "innerHTML = x")]).securityIssues =
      [{ title := "Dangerous system command execution",
         description := "Direct execution of system commands can lead to command injection vulnerabilities.",
         location := "Line 1", filePath := "a.py" },
       { title := "Potential XSS vulnerability",
         description := "Using innerHTML can lead to cross-site scripting attacks.",
         location := "Line 1", filePath := "b.js" }] := by
  refine ⟨?_, ?_, by decide⟩
  · intro code fileExt f hf
    rw [scan_eq_filter_flatMap] at hf
    obtain ⟨p, hp, hfp⟩ := List.mem_flatMap.1 hf
    obtain ⟨hmem, happ⟩ := List.mem_filter.1 hp
    exact ⟨p, hmem, happ, hfp⟩
  · intro code fileExt issues p ls hlang hmem
    have hc : ls.contains (fileTypeOf fileExt) = false := by simpa using hmem
    have happ : langApplies p fileExt = false := by
      unfold langApplies
      rw [hlang]
      exact hc
    unfold scanStep
    rw [happ]
    simp

theorem security_scan_language_scoped_witness :
    ruleInnerHTML.languages = some ["js", "jsx", "ts", "tsx"] ∧
    fileTypeOf ".py" ∉ ["js", "jsx", "ts", "tsx"] ∧
    scanStep "innerHTML = x".toList ".py" [] ruleInnerHTML = [] :=
  ⟨rfl, by decide,
    security_scan_language_scoped.2.1 "innerHTML = x".toList ".py" []
      ruleInnerHTML ["js", "jsx", "ts", "tsx"] rfl (by decide)⟩

/-- C2: the scan emits exactly one finding per non-overlapping match —
(i) the result is the concatenation of per-rule findings in catalog order
(and within one rule, match order); (ii) a rule with N matches contributes
exactly N findings; (iii) the i-th finding of a rule is located at
`"Line N"` where N is the newline count in the content before the i-th
match start, plus one. -/

theorem scan_one_finding_per_match :
    (∀ (code : List Char) (fileExt : String),
      scanForSecurityIssues code fileExt =
        (securityPatterns.filter (fun p => langApplies p fileExt)).flatMap
          (ruleFindings code)) ∧
    (∀ (code : List Char) (p : SecurityPattern),
      (ruleFindings code p).length = (matchAll p.pattern code).length) ∧
    (∀ (code : List Char) (p : SecurityPattern) (i : Nat),
      (ruleFindings code p)[i]? = ((matchAll p.pattern code)[i]?).map
        (fun idx =>
          { title := p.title, description := p.description,
            location := "Line " ++ toString ((code.take idx).count '\n' + 1) })) := by
  refine ⟨scan_eq_filter_flatMap, ?_, ?_⟩
  · intro code p
    simp [ruleFindings]
  · intro code p i
    simp [ruleFindings, List.getElem?_map, lineNumberAt, splitOnChar_length]

/-- C6: the report's `fileCount` equals the size of the collected file set,
whatever the per-file lint behaviour (including throwing steps). -/

theorem report_fileCount_is_collection_size (lintStep : LintStep)
    (files : List (String × String)) :
    (processRepositoryFiles lintStep files).fileCount = files.length :=
  processRepositoryFiles_fileCount lintStep files

/-- C7: when the Linter capability fails, `lintCode` returns the empty
diagnostic list instead of propagating, and the fresh temporary directory
is removed again on both the success and the failure path. -/

theorem lint_adapter_failure_policy_and_cleanup
    (linter : Linter) (code ext dirName : String) (st : TempState)
    (hfresh : dirName ∉ st.dirs) :
    (lintCode linter code ext dirName st).2 = st ∧
    (∀ e, linter code ext = Except.error e →
      (lintCode linter code ext dirName st).1 = []) ∧
    (∀ msgs, linter code ext = Except.ok msgs →
      (lintCode linter code ext dirName st).1 = msgs.map formatMessage) := by
  obtain ⟨dirs⟩ := st
  simp only [List.mem_singleton] at hfresh
  refine ⟨?_, ?_, ?_⟩
  · unfold lintCode
    cases linter code ext <;>
      simp only [filter_ne_append_singleton hfresh]
  · intro e he
    unfold lintCode
    rw [he]
  · intro msgs hok
    unfold lintCode
    rw [hok]

theorem lint_adapter_failure_policy_and_cleanup_witness :
    "code-review-1" ∉ (TempState.mk []).dirs ∧
    (lintCode (fun _ _ => Except.error "SyntaxError") "a;" ".js" "code-review-1"
        (TempState.mk [])).2 = TempState.mk [] ∧
    (lintCode (fun _ _ => Except.error "SyntaxError") "a;" ".js" "code-review-1"
        (TempState.mk [])).1 = [] :=
  ⟨by decide,
    (lint_adapter_failure_policy_and_cleanup _ "a;" ".js" "code-review-1" _
      (by decide)).1,
    (lint_adapter_failure_policy_and_cleanup _ "a;" ".js" "code-review-1" _
      (by decide)).2.1 "SyntaxError" rfl⟩

/-- C8: the snippet `eval(userInput)` classifies as JavaScript and the scan
over the whole catalog returns exactly one finding, titled
"Dangerous use of eval()", located at `Line 1`. -/

theorem snippet_eval_single_finding :
    guessFileExtension "eval(userInput)" = ".js" ∧
    scanForSecurityIssues "eval(userInput)".toList ".js" =
      [{ title := "Dangerous use of eval()",
         description := "The eval() function can execute arbitrary code, posing a security risk.",
         location := "Line 1" }] := by
  exact ⟨by decide, by decide⟩

/-- C3: a per-file exception is caught locally — `processedFiles` collects
exactly the files whose pipeline ran to completion, in order, so one
throwing file never stops the rest.  An *unparsable* file does not even
throw at the loop level: the ESLint failure is caught inside the adapter,
so the file still completes with zero lint diagnostics; for one unparsable
plus two clean files all three complete and the batch reports no lint
issue, while a genuinely throwing step only drops the failing file. -/

theorem repo_fanout_error_isolation :
    (∀ (lintStep : LintStep) (files : List (String × String)),
      (processRepositoryFiles lintStep files).processedFiles =
        (files.filter (fun fc => fileProcessedOk lintStep fc.1 fc.2)).map Prod.fst) ∧
    (processRepositoryFiles caughtLintStep
        [("bad.js", "a;"), ("g1.js", "b;"), ("g2.py", "c = 1")]).processedFiles =
      ["bad.js", "g1.js", "g2.py"] ∧
    (processRepositoryFiles caughtLintStep
        [("bad.js", "a;"), ("g1.js", "b;"), ("g2.py", "c = 1")]).lintIssues = [] ∧
    lintCodeResult failingLinter "a;" ".js" = [] ∧
    (processRepositoryFiles throwingLintStep
        [("bad.js", "a;"), ("g1.js", "b;"), ("g2.py", "c = 1")]).processedFiles =
      ["g1.js", "g2.py"] := by
  exact ⟨processRepositoryFiles_processedFiles, by decide, by decide, by decide,
    by decide⟩

/-- C4 counterexample: the security duplicate test is equality of the glued
string `location + "-" + title`, not of the `(location, title)` pair — the
pairs `("a", "b-c")` and `("a-b", "c")` differ, yet the second finding is
dropped as a duplicate of the first. -/

theorem dedupe_security_pair_counterexample :
    dedupeSecurity [secIssueGlueA, secIssueGlueB] = [secIssueGlueA] ∧
    securityPair secIssueGlueB ≠ securityPair secIssueGlueA := by
  exact ⟨by decide, by decide⟩

/-- C4 (amended): deduplication keeps the first occurrence of each duplicate
class and preserves order (survivors form a sublist) and is idempotent; lint
diagnostics are duplicates exactly when their `(line, message)` pair is
equal, regardless of file path; security findings are duplicates exactly
when their glued `location-title` identifier strings are equal, which
coincides with `(location, title)` pair equality whenever the locations
contain no hyphen (as all scanner-produced `"Line N"` locations do). -/

theorem dedupe_first_wins_order_idempotent :
    (∀ l : List RepoLintIssue, dedupeLint l = dedupeBy lintPair l) ∧
    (∀ l : List RepoSecurityIssue, (∀ x ∈ l, '-' ∉ x.location.toList) →
      dedupeSecurity l = dedupeBy securityPair l) ∧
    (∀ l : List RepoLintIssue, (dedupeLint l).Sublist l) ∧
    (∀ l : List RepoSecurityIssue, (dedupeSecurity l).Sublist l) ∧
    (∀ l : List RepoLintIssue, dedupeLint (dedupeLint l) = dedupeLint l) ∧
    (∀ l : List RepoSecurityIssue,
      dedupeSecurity (dedupeSecurity l) = dedupeSecurity l) ∧
    (∀ (l : List RepoLintIssue) (x : RepoLintIssue),
      (dedupeLint l).find? (fun y => decide (lintIdent y = lintIdent x)) =
        l.find? (fun y => decide (lintIdent y = lintIdent x))) ∧
    (∀ (l : List RepoSecurityIssue) (x : RepoSecurityIssue),
      (dedupeSecurity l).find? (fun y => decide (securityIdent y = securityIdent x)) =
        l.find? (fun y => decide (securityIdent y = securityIdent x))) := by
  exact ⟨dedupeLint_eq_pair, dedupeSecurity_eq_pair,
    fun l => dedupeBy_sublist lintIdent l,
    fun l => dedupeBy_sublist securityIdent l,
    fun l => dedupeBy_idem lintIdent l,
    fun l => dedupeBy_idem securityIdent l,
    fun l x => dedupeBy_find? lintIdent l x,
    fun l x => dedupeBy_find? securityIdent l x⟩

theorem dedupe_first_wins_order_idempotent_witness :
    (∀ x ∈ [secIssueLineOne], '-' ∉ x.location.toList) ∧
    dedupeSecurity [secIssueLineOne] = dedupeBy securityPair [secIssueLineOne] :=
  ⟨by decide, dedupe_first_wins_order_idempotent.2.1 _ (by decide)⟩

/-- C5: the repository collector prunes every excluded directory entirely —
emptying the contents of every excluded directory anywhere in the tree
leaves the result unchanged, so nothing inside one is ever returned, even a
supported file — and every returned path carries a supported extension; in
particular a `node_modules` directory holding `lib.js` yields nothing. -/

theorem collector_prunes_and_filters :
    (∀ (d : String) (ts : List FsTree),
      getCodeFiles d (pruneForest ts) = getCodeFiles d ts) ∧
    (∀ (ts : List FsTree) (d : String), forestNamesOk ts = true →
      ∀ p ∈ getCodeFiles d ts, extnameLower p ∈ codeExtensions) ∧
    getCodeFiles "repo" [FsTree.dir "node_modules" [FsTree.file "lib.js"]] = [] := by
  refine ⟨fun d ts => scanDirectory_prune codeExtensions ts d,
    scanDirectory_ext_sound codeExtensions, ?_⟩
  simp [getCodeFiles, scanDirectory, excludedDirs]

theorem collector_prunes_and_filters_witness :
    forestNamesOk [FsTree.file "a.js"] = true ∧
    "repo" ++ "/" ++ "a.js" ∈ getCodeFiles "repo" [FsTree.file "a.js"] ∧
    extnameLower ("repo" ++ "/" ++ "a.js") ∈ codeExtensions := by
  have h1 : forestNamesOk [FsTree.file "a.js"] = true := by
    simp [forestNamesOk, treeNamesOk]
  have h2 : "repo" ++ "/" ++ "a.js" ∈ getCodeFiles "repo" [FsTree.file "a.js"] := by
    simp [getCodeFiles, scanDirectory, fsJoin, extnameLower, extnameOf,
      baseNameOf, extFromBase, codeExtensions]
  exact ⟨h1, h2,
    collector_prunes_and_filters.2.1 [FsTree.file "a.js"] "repo" h1 _ h2⟩

/-- C9: a `repo` request for `https://example.com/not-github` is answered
with the 400 invalid-URL error and an empty collaborator trace — no fetch,
collection or analysis runs, whatever the environment. -/

theorem invalid_repo_url_rejected_before_fetch (env : Env) :
    postHandler env "repo" "https://example.com/not-github" =
      (errorResponse 400
        "Invalid GitHub URL. Please provide a valid GitHub repository URL.", []) := by
  unfold postHandler
  rw [if_neg (by decide : ¬ ("https://example.com/not-github" : String) = "")]
  rw [if_neg (by decide : ¬ ("repo" : String) = "code")]
  rw [if_pos rfl]
  rw [show containsStr "https://example.com/not-github" "github.com" = false
    from by decide]
  simp

/-- C10: the repository gate is a plain substring test on the request
content — (i) when the content does not contain `github.com`, the request
is answered 400 with an empty trace (no fetch); (ii) when it does, a fetch
of that exact content is attempted; (iii) `https://notgithub.com/a/b`
passes even the URL parser's own hostname test; (iv) when the fetch then
fails, the failure surfaces as a 500 error, not a 400. -/

theorem repo_url_gate_is_substring_test :
    (∀ (env : Env) (content : String),
      containsStr content "github.com" = false →
        (postHandler env "repo" content).1.status = 400 ∧
        (postHandler env "repo" content).2 = []) ∧
    (∀ (env : Env) (content : String),
      containsStr content "github.com" = true →
        ∃ rest, (postHandler env "repo" content).2 = Effect.fetch content :: rest) ∧
    parseGitHubUrl "https://notgithub.com/a/b" = Except.ok ("a", "b") ∧
    (∀ (env : Env) (e : String),
      env.fetchRepo "https://notgithub.com/a/b" = Except.error e →
        postHandler env "repo" "https://notgithub.com/a/b" =
          (errorResponse 500 ("Error processing repository: " ++ e),
           [Effect.fetch "https://notgithub.com/a/b"])) := by
  refine ⟨?_, ?_, by rfl, ?_⟩
  · intro env content h
    by_cases hc : content = ""
    · subst hc
      exact ⟨rfl, rfl⟩
    · unfold postHandler
      rw [if_neg hc]
      rw [if_neg (by decide : ¬ ("repo" : String) = "code")]
      rw [if_pos rfl]
      rw [h]
      simp [errorResponse]
  · intro env content h
    have hc : content ≠ "" := by
      intro hempty
      rw [hempty] at h
      exact absurd h (by decide)
    unfold postHandler
    rw [if_neg hc]
    rw [if_neg (by decide : ¬ ("repo" : String) = "code")]
    rw [if_pos rfl]
    rw [h]
    simp only [if_true]
    rcases env.fetchRepo content with e | files
    · exact ⟨[], rfl⟩
    · dsimp only
      by_cases hlen : files.length = 0
      · rw [if_pos hlen]
        exact ⟨[], rfl⟩
      · rw [if_neg hlen]
        exact ⟨[Effect.lintRun, Effect.aiRun], rfl⟩
  · intro env e he
    unfold postHandler
    rw [if_neg (by decide : ¬ ("https://notgithub.com/a/b" : String) = "")]
    rw [if_neg (by decide : ¬ ("repo" : String) = "code")]
    rw [if_pos rfl]
    rw [show containsStr "https://notgithub.com/a/b" "github.com" = true
      from by decide]
    rw [he]
    rw [if_pos rfl]

theorem repo_url_gate_is_substring_test_witness :
    (containsStr "https://example.com/x" "github.com" = false ∧
      (postHandler fetchFailEnv "repo" "https://example.com/x").1.status = 400 ∧
      (postHandler fetchFailEnv "repo" "https://example.com/x").2 = []) ∧
    (containsStr "https://github.com/a/b" "github.com" = true ∧
      ∃ rest, (postHandler fetchFailEnv "repo" "https://github.com/a/b").2 =
        Effect.fetch "https://github.com/a/b" :: rest) ∧
    (fetchFailEnv.fetchRepo "https://notgithub.com/a/b" =
        Except.error "fatal: repository not found" ∧
      postHandler fetchFailEnv "repo" "https://notgithub.com/a/b" =
        (errorResponse 500
          "Error processing repository: fatal: repository not found",
         [Effect.fetch "https://notgithub.com/a/b"])) :=
  ⟨⟨by decide,
    (repo_url_gate_is_substring_test.1 fetchFailEnv "https://example.com/x"
      (by decide)).1,
    (repo_url_gate_is_substring_test.1 fetchFailEnv "https://example.com/x"
      (by decide)).2⟩,
   ⟨by decide,
    repo_url_gate_is_substring_test.2.1 fetchFailEnv "https://github.com/a/b"
      (by decide)⟩,
   ⟨rfl,
    repo_url_gate_is_substring_test.2.2.2 fetchFailEnv
      "fatal: repository not found" rfl⟩⟩
